import Mathlib

/-!
Verification of the primer-matching engine of the `pcr_scanner` repository
(`src/cram_scanner.py`, `src/pcr_scanner.py`).

The Python code is shallowly embedded: sequences are lists of characters,
fallible operations (Python exceptions) return `Option`/`Except`, and the
single combined regular-expression search of the exact strategy is embedded
by its leftmost / first-alternative / greedy-group semantics restricted to
the one pattern shape the program compiles, namely
`(.*)<literal>(.+)<literal>(.*)` joined into one ordered alternation.
-/

/-- A nucleotide sequence, one character per base (a Python string). -/
abbrev Bases := List Char

/-- Errors of the engine: an unrecognized base inside `revcomp` (Python
`KeyError`, the spec's `UnknownBaseError`), a malformed primer-file line
(Python `ValueError` from tuple unpacking, the spec's `PrimerFileError`), and
the uncaught runtime error of the exact-strategy main loop when
`match_position` returns `None` and the code evaluates `None // 3` (a Python
`TypeError`), which is reached on every read when the catalog is empty and
the combined pattern is `re.compile('')`. -/
inductive ScanError where
  | unknownBase
  | primerFile
  | typeErr
deriving DecidableEq

/-- The key-value pairs of the `complements` dictionary of `revcomp` in both
source files: `A=T, C=G, G=C, T=A, M=K, R=Y, W=W, S=S, Y=R, K=M, V=B, H=D,
D=H, B=V, N=N`. -/
def complementTable : List (Char × Char) :=
  [('A','T'), ('C','G'), ('G','C'), ('T','A'),
   ('M','K'), ('R','Y'), ('W','W'), ('S','S'),
   ('Y','R'), ('K','M'), ('V','B'), ('H','D'),
   ('D','H'), ('B','V'), ('N','N')]

/-- First value bound to key `c`, `none` if `c` is not a key. -/
def tableLookup (c : Char) : List (Char × Char) → Option Char
  | [] => none
  | p :: rest => if c = p.1 then some p.2 else tableLookup c rest

/-- The degenerate-base complement mapping (`complements[char]` in the source);
characters outside the table yield `none` (Python raises `KeyError`). -/
def complements (c : Char) : Option Char := tableLookup c complementTable

/-- Map `complements` over a list, failing if any character is unmapped
(the generator expression inside `''.join(...)` of `revcomp`). -/
def mapCompl : List Char → Option (List Char)
  | [] => some []
  | c :: rest =>
    match complements c, mapCompl rest with
    | some v, some r => some (v :: r)
    | _, _ => none

/-- Function `revcomp(s)` from both source files: uppercase `s`, reverse it, then map
every character through the complement table
(`''.join(complements[char] for char in s.upper()[::-1])`). -/
def revcomp (s : Bases) : Option Bases :=
  mapCompl ((s.map Char.toUpper).reverse)

/-- A character whose uppercasing is a key of the complement table. -/
def KeyChar (c : Char) : Prop := (complements c.toUpper).isSome

instance (c : Char) : Decidable (KeyChar c) := by
  unfold KeyChar; infer_instance

theorem tableLookup_mem {c v : Char} :
    ∀ {l : List (Char × Char)}, tableLookup c l = some v → (c, v) ∈ l := by
  intro l
  induction l with
  | nil => intro h; cases h
  | cons p rest ih =>
    intro h
    unfold tableLookup at h
    split at h
    · injection h with h
      subst h
      rename_i hc
      subst hc
      exact List.mem_cons_self _ _
    · exact List.mem_cons_of_mem _ (ih h)

/-- The complement table is a symmetric involution and its values are
uppercase fixed points of `Char.toUpper`. -/
theorem compl_invol {c v : Char} (h : complements c = some v) :
    complements v = some c ∧ v.toUpper = v := by
  have hm : (c, v) ∈ complementTable := tableLookup_mem h
  simp only [complementTable, List.mem_cons, List.not_mem_nil, or_false] at hm
  rcases hm with hm|hm|hm|hm|hm|hm|hm|hm|hm|hm|hm|hm|hm|hm|hm <;>
    (injection hm with h1 h2; subst h1; subst h2; exact ⟨by decide, by decide⟩)

theorem mapCompl_isSome {l : List Char} (h : ∀ c ∈ l, (complements c).isSome) :
    ∃ r, mapCompl l = some r := by
  induction l with
  | nil => exact ⟨[], rfl⟩
  | cons c rest ih =>
    obtain ⟨r, hr⟩ := ih (fun d hd => h d (List.mem_cons_of_mem _ hd))
    have hc := h c (List.mem_cons_self _ _)
    obtain ⟨v, hv⟩ := Option.isSome_iff_exists.mp hc
    exact ⟨v :: r, by simp [mapCompl, hv, hr]⟩

theorem mapCompl_invol {l r : List Char} (h : mapCompl l = some r) :
    mapCompl r = some l ∧ r.map Char.toUpper = r := by
  induction l generalizing r with
  | nil =>
    simp only [mapCompl] at h
    injection h with h; subst h; exact ⟨rfl, rfl⟩
  | cons c rest ih =>
    simp only [mapCompl] at h
    rcases hc : complements c with _ | v <;> rw [hc] at h
    · cases h
    rcases hrest : mapCompl rest with _ | r' <;> rw [hrest] at h
    · cases h
    injection h with h; subst h
    obtain ⟨hinv, hup⟩ := ih hrest
    obtain ⟨hvc, hvu⟩ := compl_invol hc
    exact ⟨by simp [mapCompl, hvc, hinv], by simp [hvu, hup]⟩

theorem mapCompl_append {l₁ l₂ r₁ r₂ : List Char} (h₁ : mapCompl l₁ = some r₁)
    (h₂ : mapCompl l₂ = some r₂) : mapCompl (l₁ ++ l₂) = some (r₁ ++ r₂) := by
  induction l₁ generalizing r₁ with
  | nil =>
    simp only [mapCompl] at h₁
    injection h₁ with h₁; subst h₁; simpa using h₂
  | cons c rest ih =>
    simp only [mapCompl] at h₁
    rcases hc : complements c with _ | v <;> rw [hc] at h₁
    · cases h₁
    rcases hrest : mapCompl rest with _ | r' <;> rw [hrest] at h₁
    · cases h₁
    injection h₁ with h₁; subst h₁
    simp [mapCompl, hc, ih hrest]

theorem mapCompl_reverse {l r : List Char} (h : mapCompl l = some r) :
    mapCompl l.reverse = some r.reverse := by
  induction l generalizing r with
  | nil =>
    simp only [mapCompl] at h
    injection h with h; subst h; exact rfl
  | cons c rest ih =>
    simp only [mapCompl] at h
    rcases hc : complements c with _ | v <;> rw [hc] at h
    · cases h
    rcases hrest : mapCompl rest with _ | r' <;> rw [hrest] at h
    · cases h
    injection h with h; subst h
    have h1 : mapCompl [c] = some [v] := by simp [mapCompl, hc]
    simpa using mapCompl_append (ih hrest) h1

/-- C7: for every sequence over the recognized IUPAC alphabet (upper or lower
case), `revcomp` succeeds and applying it twice returns the uppercased input:
`revcomp(revcomp(s)) == s.upper()`. -/
theorem c7_revcomp_involutive (s : Bases) (h : ∀ c ∈ s, KeyChar c) :
    ∃ t, revcomp s = some t ∧ revcomp t = some (s.map Char.toUpper) := by
  have hall : ∀ c ∈ (s.map Char.toUpper).reverse, (complements c).isSome := by
    intro c hc
    rw [List.mem_reverse, List.mem_map] at hc
    obtain ⟨c0, hc0, rfl⟩ := hc
    exact h c0 hc0
  obtain ⟨t, ht⟩ := mapCompl_isSome hall
  refine ⟨t, ht, ?_⟩
  obtain ⟨hinv, hup⟩ := mapCompl_invol ht
  have := mapCompl_reverse hinv
  rw [List.reverse_reverse] at this
  unfold revcomp
  rw [hup, this]

/-- C7 witness: the double reverse complement of `"acgtMRWSykvhdbn"` is its
uppercasing. -/
theorem c7_witness :
    ∃ t, revcomp ("acgtMRWSykvhdbn".toList) = some t ∧
      revcomp t = some (("acgtMRWSykvhdbn".toList).map Char.toUpper) :=
  c7_revcomp_involutive ("acgtMRWSykvhdbn".toList) (by decide)

/-! ## Primer catalog loading (`read_primers` in both source files) -/

/-- Helper of `splitWS`: accumulates the current token (reversed). -/
def splitWSAux : List Char → List Char → List Bases
  | [], acc => if acc = [] then [] else [acc.reverse]
  | c :: rest, acc =>
    if c.isWhitespace then
      if acc = [] then splitWSAux rest []
      else acc.reverse :: splitWSAux rest []
    else splitWSAux rest (c :: acc)

/-- Python `str.split()` with no argument: split on runs of whitespace,
dropping leading and trailing whitespace (which also makes the `rstrip()`
preceding it in the source a no-op for tokenization). -/
def splitWS (line : List Char) : List Bases := splitWSAux line []

/-- Function `read_primers` of `cram_scanner.py`: one primer pair per line, by
`p1, p2 = line.rstrip().split()`; a line that does not split into exactly two
tokens raises (Python `ValueError`, the spec's `PrimerFileError`). The input
is the list of lines of the primer file. -/
def read_primers : List (List Char) → Except ScanError (List (Bases × Bases))
  | [] => Except.ok []
  | line :: rest =>
    match splitWS line with
    | [p1, p2] => (read_primers rest).map (fun ps => (p1, p2) :: ps)
    | _ => Except.error ScanError.primerFile

/-- The reverse-complemented catalog of `read_primers` in `pcr_scanner.py`:
`[(revcomp(p1), revcomp(p2)) for (p1, p2) in primers]`; `none` if any primer
has an unrecognized character. -/
def revPairs : List (Bases × Bases) → Option (List (Bases × Bases))
  | [] => some []
  | p :: rest =>
    match revcomp p.1, revcomp p.2, revPairs rest with
    | some a, some b, some r => some ((a, b) :: r)
    | _, _, _ => none

theorem read_primers_error_val :
    ∀ {lines : List (List Char)} {e : ScanError},
      read_primers lines = Except.error e → e = ScanError.primerFile := by
  intro lines
  induction lines with
  | nil => intro e h; cases h
  | cons line rest ih =>
    intro e h
    unfold read_primers at h
    split at h
    · rcases hr : read_primers rest with e' | ps <;> rw [hr] at h
      · injection h with h; subst h; exact ih hr
      · cases h
    · injection h with h; exact h.symm

theorem read_primers_error_exists :
    ∀ {lines : List (List Char)},
      (∃ e, read_primers lines = Except.error e) ↔
        ∃ l ∈ lines, (splitWS l).length ≠ 2 := by
  intro lines
  induction lines with
  | nil => simp [read_primers]
  | cons line rest ih =>
    constructor
    · rintro ⟨e, h⟩
      unfold read_primers at h
      rcases hs : splitWS line with _ | ⟨t1, _ | ⟨t2, _ | ⟨t3, tl⟩⟩⟩ <;> rw [hs] at h
      · exact ⟨line, List.mem_cons_self _ _, by rw [hs]; simp⟩
      · exact ⟨line, List.mem_cons_self _ _, by rw [hs]; simp⟩
      · rcases hr : read_primers rest with e' | ps <;> rw [hr] at h
        · obtain ⟨l, hl, hlen⟩ := ih.mp ⟨e', hr⟩
          exact ⟨l, List.mem_cons_of_mem _ hl, hlen⟩
        · cases h
      · refine ⟨line, List.mem_cons_self _ _, ?_⟩
        rw [hs]; simp
    · rintro ⟨l, hl, hlen⟩
      rcases List.mem_cons.mp hl with rfl | hl
      · unfold read_primers
        rcases hs : splitWS l with _ | ⟨t1, _ | ⟨t2, _ | ⟨t3, tl⟩⟩⟩
        · exact ⟨ScanError.primerFile, rfl⟩
        · exact ⟨ScanError.primerFile, rfl⟩
        · exact absurd (by rw [hs]; rfl) hlen
        · exact ⟨ScanError.primerFile, rfl⟩
      · obtain ⟨e, he⟩ := ih.mpr ⟨l, hl, hlen⟩
        unfold read_primers
        rcases hs : splitWS line with _ | ⟨t1, _ | ⟨t2, _ | ⟨t3, tl⟩⟩⟩
        · exact ⟨ScanError.primerFile, rfl⟩
        · exact ⟨ScanError.primerFile, rfl⟩
        · exact ⟨e, by rw [he]; rfl⟩
        · exact ⟨ScanError.primerFile, rfl⟩

/-- C6 counterexample: on an empty primer source the loader raises nothing and
returns the empty catalog, contradicting the claim that loading fails on an
empty source and never returns an empty catalog. -/
theorem c6_counterexample :
    read_primers [] = Except.ok [] ∧
      ¬ ∃ e, read_primers ([] : List (List Char)) = Except.error e := by
  refine ⟨rfl, ?_⟩
  rintro ⟨e, he⟩
  cases he

/-- C6 amended: loading fails (with `PrimerFileError`) exactly when some line
does not split into exactly two whitespace-delimited tokens; an empty source
is not an error and yields the empty catalog. -/
theorem c6_read_primers_failure (lines : List (List Char)) :
    (read_primers lines = Except.error ScanError.primerFile ↔
      ∃ l ∈ lines, (splitWS l).length ≠ 2) ∧
      read_primers [] = Except.ok ([] : List (Bases × Bases)) := by
  refine ⟨⟨fun h => read_primers_error_exists.mp ⟨_, h⟩, fun h => ?_⟩, rfl⟩
  obtain ⟨e, he⟩ := read_primers_error_exists.mpr h
  rwa [read_primers_error_val he] at he

/-- C6 witness: a one-token line is rejected, a well-formed file is accepted. -/
theorem c6_witness :
    read_primers ["AAAA CCCC".toList, "GG".toList] =
      Except.error ScanError.primerFile :=
  (c6_read_primers_failure _).1.mpr ⟨"GG".toList, by simp, by decide⟩

/-! ## Pattern compiler of the exact strategy (`build_regex` in
`cram_scanner.py`).

Each compiled sub-pattern is the template `(.*)<litA>(.+)<litB>(.*)`, here an
explicit list of pieces; the combined pattern is the ordered list of the
alternatives (the alternation `(?:...)|(?:...)|...`). -/

/-- One piece of a compiled pattern: a capturing group `(.*)`, a capturing
group `(.+)`, or a primer literal. -/
inductive RegexPiece where
  | groupStar
  | groupPlus
  | lit (s : Bases)
deriving DecidableEq

/-- The template `'(.*){}(.+){}(.*)'.format(litA, litB)`. -/
def altPattern (litA litB : Bases) : List RegexPiece :=
  [RegexPiece.groupStar, RegexPiece.lit litA, RegexPiece.groupPlus,
   RegexPiece.lit litB, RegexPiece.groupStar]

/-- Number of capturing groups of a compiled alternative. -/
def countGroups (alt : List RegexPiece) : Nat :=
  alt.foldl (fun n p => match p with | RegexPiece.lit _ => n | _ => n + 1) 0

/-- Function `build_regex(primers_list)` of `cram_scanner.py`: forward
alternatives `(.*)<p2>(.+)<p1>(.*)` for every pair in order, then reverse
alternatives `(.*)<revcomp(p1)>(.+)<revcomp(p2)>(.*)` for every pair in
order; `none` if `revcomp` hits an unrecognized primer character. -/
def build_regex (primers : List (Bases × Bases)) :
    Option (List (List RegexPiece)) :=
  match revPairs primers with
  | none => none
  | some rl =>
    some (primers.map (fun p => altPattern p.2 p.1) ++
          rl.map (fun q => altPattern q.1 q.2))

/-- The two literals of a compiled alternative of `build_regex`. -/
def altLits (alt : List RegexPiece) : Bases × Bases :=
  match alt with
  | [RegexPiece.groupStar, RegexPiece.lit a, RegexPiece.groupPlus,
     RegexPiece.lit b, RegexPiece.groupStar] => (a, b)
  | _ => ([], [])

/-! ## Search semantics of one alternative.

The pattern `(.*)litA(.+)litB(.*)` matches a string iff `litA` occurs at some
position, followed (after a non-empty gap) by an occurrence of `litB`.  The
Python regex engine resolves the groups greedily: the leading `(.*)` takes the
largest viable prefix, then `(.+)` takes the largest viable middle, and the
final `(.*)` takes the whole remainder. -/

/-- The literal `lit` occurs in `s` at position `k`. -/
def occursAt (lit : Bases) (s : Bases) (k : Nat) : Bool :=
  lit.isPrefixOf (s.drop k)

/-- Position `k` is viable for `(.*)litA(.+)litB(.*)`: `litA` occurs at `k`
and `litB` occurs after a non-empty gap. -/
def viable (litA litB : Bases) (s : Bases) (k : Nat) : Bool :=
  occursAt litA s k &&
    (List.range (s.length + 1)).any
      (fun m => decide (1 ≤ m) && occursAt litB s (k + litA.length + m))

/-- Greedy match of `(.*)litA(.+)litB(.*)` against the whole string `s`:
the three returned strings are the captures of the three groups.  `find?` over
the reversed range realizes the greedy (largest-first) choice. -/
def matchAlt (litA litB : Bases) (s : Bases) : Option (Bases × Bases × Bases) :=
  match (List.range (s.length + 1)).reverse.find? (viable litA litB s) with
  | none => none
  | some k =>
    match (List.range (s.length + 1)).reverse.find?
        (fun m => decide (1 ≤ m) && occursAt litB s (k + litA.length + m)) with
    | none => none
    | some m =>
      some (s.take k, (s.drop (k + litA.length)).take m,
            s.drop (k + litA.length + m + litB.length))

/-- Combined search `multirgx.search(seq)`: because every alternative starts
and ends with `(.*)`, an alternative that matches anywhere matches at start
position 0, so the regex engine picks the first (leftmost-listed) alternative
that matches at all; its index and its greedy groups are returned. -/
def searchCombined : List (Bases × Bases) → Bases →
    Option (Nat × (Bases × Bases × Bases))
  | [], _ => none
  | ab :: rest, s =>
    match matchAlt ab.1 ab.2 s with
    | some g => some (0, g)
    | none =>
      match searchCombined rest s with
      | some jg => some (jg.1 + 1, jg.2)
      | none => none

/-- Group tuple `search.groups()` of a combined-pattern match in which
alternative `j` (of `numAlts`) matched with group captures `g`: all groups of
the other alternatives are `None`, the three groups of alternative `j` hold
its captures. -/
def groupsOf (numAlts j : Nat) (g : Bases × Bases × Bases) :
    List (Option Bases) :=
  List.replicate (3 * j) none ++
    [some g.1, some g.2.1, some g.2.2] ++
    List.replicate (3 * (numAlts - 1 - j)) none

/-- Function `match_position(l)` of both source files: index of the first
element that is not `None`. -/
def match_position : List (Option Bases) → Option Nat
  | [] => none
  | some _ :: _ => some 0
  | none :: rest =>
    match match_position rest with
    | some p => some (p + 1)
    | none => none

/-- Model of `multirgx.search(seq)` followed by `search.groups()`: `none`
when the combined pattern does not match the read, otherwise the full group
tuple of the match.  A non-empty alternation matches iff one of its
alternatives does (`searchCombined`); the empty catalog's alternation is
`'|'.join` of no patterns, i.e. `re.compile('')`, which matches every read
with an empty group tuple. -/
def reGroups (alts : List (List RegexPiece)) (seq : Bases) :
    Option (List (Option Bases)) :=
  match alts with
  | [] => some []
  | _ :: _ =>
    match searchCombined (alts.map altLits) seq with
    | none => none
    | some (j, g) => some (groupsOf alts.length j g)

/-- One output row of the exact strategy (`cram_scanner.py` main loop);
`orientation` is `true` for a reverse ('-') match. -/
structure Row where
  primerpos : Nat
  fiveprime : Bases
  primer1 : Bases
  sequence : Bases
  primer2 : Bases
  threeprime : Bases
  orientation : Bool
deriving DecidableEq

/-- Main loop body of `cram_scanner.py` for one read: build the combined
pattern, search it, decode the matching alternative from the group tuple
(`rgx_pos // 3`, `% len(primers)`, `>= len(primers)`), slice the three
captured groups out of the tuple, and on a reverse match pass them through
`revcomp` (which can raise).  Returns `ok none` when the search fails (no
output row).  When `match_position` returns `None` — which happens on every
read over an empty catalog, whose combined pattern `re.compile('')` matches
with an empty group tuple — `None // 3` raises an uncaught `TypeError`
(`ScanError.typeErr`); the same error stands in for the unpack failure of a
group slice shorter than three (unreachable for a non-empty catalog). -/
def annotate_exact (primers : List (Bases × Bases)) (seq : Bases) :
    Except ScanError (Option Row) :=
  match build_regex primers with
  | none => Except.error ScanError.unknownBase
  | some alts =>
    match reGroups alts seq with
    | none => Except.ok none
    | some groups =>
      match match_position groups with
      | none => Except.error ScanError.typeErr
      | some rgx_pos =>
        let primer_pos := rgx_pos / 3
        let is_reverse := decide (primers.length ≤ primer_pos)
        let primer_pos := primer_pos % primers.length
        let pr := primers.getD primer_pos ([], [])
        match groups.getD rgx_pos none, groups.getD (rgx_pos + 1) none,
            groups.getD (rgx_pos + 2) none with
        | some pre, some mid, some post =>
          if is_reverse then
            match revcomp pre, revcomp mid, revcomp post with
            | some tp, some cap, some fp =>
              Except.ok (some ⟨primer_pos, fp, pr.2, cap, pr.1, tp, true⟩)
            | _, _, _ => Except.error ScanError.unknownBase
          else
            Except.ok (some ⟨primer_pos, pre, pr.2, mid, pr.1, post, false⟩)
        | _, _, _ => Except.error ScanError.typeErr

/-! ## Structure of the compiled alternation -/

/-- A primer pair whose two sequences are over the recognized alphabet. -/
def KeyPair (p : Bases × Bases) : Prop :=
  (∀ c ∈ p.1, KeyChar c) ∧ (∀ c ∈ p.2, KeyChar c)

instance (p : Bases × Bases) : Decidable (KeyPair p) := by
  unfold KeyPair; infer_instance

theorem revcomp_isSome {s : Bases} (h : ∀ c ∈ s, KeyChar c) :
    ∃ t, revcomp s = some t := by
  apply mapCompl_isSome
  intro c hc
  rw [List.mem_reverse, List.mem_map] at hc
  obtain ⟨c0, hc0, rfl⟩ := hc
  exact h c0 hc0

theorem revPairs_isSome {ps : List (Bases × Bases)}
    (h : ∀ p ∈ ps, KeyPair p) : ∃ rl, revPairs ps = some rl := by
  induction ps with
  | nil => exact ⟨[], rfl⟩
  | cons p rest ih =>
    obtain ⟨rl, hrl⟩ := ih (fun q hq => h q (List.mem_cons_of_mem _ hq))
    obtain ⟨hk1, hk2⟩ := h p (List.mem_cons_self _ _)
    obtain ⟨a, ha⟩ := revcomp_isSome hk1
    obtain ⟨b, hb⟩ := revcomp_isSome hk2
    exact ⟨(a, b) :: rl, by simp [revPairs, ha, hb, hrl]⟩

theorem revPairs_length {ps rl : List (Bases × Bases)}
    (h : revPairs ps = some rl) : rl.length = ps.length := by
  induction ps generalizing rl with
  | nil => simp only [revPairs] at h; injection h with h; subst h; rfl
  | cons p rest ih =>
    simp only [revPairs] at h
    rcases h1 : revcomp p.1 with _ | a <;> rw [h1] at h
    · cases h
    rcases h2 : revcomp p.2 with _ | b <;> rw [h2] at h
    · cases h
    rcases h3 : revPairs rest with _ | r <;> rw [h3] at h
    · cases h
    injection h with h; subst h
    simp [ih h3]

theorem revPairs_get {ps rl : List (Bases × Bases)}
    (h : revPairs ps = some rl) :
    ∀ (i : Nat) (p : Bases × Bases), ps[i]? = some p →
      ∃ a b, revcomp p.1 = some a ∧ revcomp p.2 = some b ∧
        rl[i]? = some (a, b) := by
  induction ps generalizing rl with
  | nil => intro i p hp; cases hp
  | cons q rest ih =>
    simp only [revPairs] at h
    rcases h1 : revcomp q.1 with _ | a <;> rw [h1] at h
    · cases h
    rcases h2 : revcomp q.2 with _ | b <;> rw [h2] at h
    · cases h
    rcases h3 : revPairs rest with _ | r <;> rw [h3] at h
    · cases h
    injection h with h; subst h
    intro i p hp
    match i with
    | 0 =>
      rw [List.getElem?_cons_zero] at hp
      injection hp with hp; subst hp
      exact ⟨a, b, h1, h2, List.getElem?_cons_zero⟩
    | i + 1 =>
      rw [List.getElem?_cons_succ] at hp
      obtain ⟨a', b', ha', hb', hr'⟩ := ih h3 i p hp
      exact ⟨a', b', ha', hb', by rw [List.getElem?_cons_succ]; exact hr'⟩

theorem build_regex_isSome {primers : List (Bases × Bases)}
    (h : ∀ p ∈ primers, KeyPair p) :
    ∃ alts, build_regex primers = some alts := by
  obtain ⟨rl, hrl⟩ := revPairs_isSome h
  refine ⟨primers.map (fun p => altPattern p.2 p.1) ++
    rl.map (fun q => altPattern q.1 q.2), ?_⟩
  unfold build_regex
  rw [hrl]

theorem build_regex_spec {primers : List (Bases × Bases)}
    {alts : List (List RegexPiece)} (h : build_regex primers = some alts) :
    alts.length = 2 * primers.length ∧
    (∀ (i : Nat) (p : Bases × Bases), primers[i]? = some p →
      alts[i]? = some (altPattern p.2 p.1)) ∧
    (∀ (i : Nat) (p : Bases × Bases), primers[i]? = some p →
      ∃ a b, revcomp p.1 = some a ∧ revcomp p.2 = some b ∧
        alts[primers.length + i]? = some (altPattern a b)) ∧
    (∀ alt ∈ alts, ∃ x y, alt = altPattern x y) := by
  unfold build_regex at h
  rcases hrl : revPairs primers with _ | rl <;> rw [hrl] at h
  · cases h
  injection h with h; subst h
  have hlen := revPairs_length hrl
  refine ⟨by simp [hlen]; ring, ?_, ?_, ?_⟩
  · intro i p hp
    have hi : i < primers.length := (List.getElem?_eq_some.mp hp).1
    rw [List.getElem?_append_left (by simpa using hi), List.getElem?_map, hp]
    rfl
  · intro i p hp
    obtain ⟨a, b, ha, hb, hr⟩ := revPairs_get hrl i p hp
    refine ⟨a, b, ha, hb, ?_⟩
    rw [List.getElem?_append_right (by simp), List.getElem?_map]
    simp only [List.length_map]
    rw [Nat.add_sub_cancel_left, hr]
    rfl
  · intro alt halt
    rcases List.mem_append.mp halt with hm | hm <;>
      · obtain ⟨q, _, hq⟩ := List.mem_map.mp hm
        exact ⟨_, _, hq.symm⟩

/-- C1: the exact-strategy pattern compiler produces a single alternation of
exactly `2 N` alternatives; alternative `i` is the forward pattern
`(.*)<p2_i>(.+)<p1_i>(.*)` (the second listed oligo first in read order),
alternative `N + i` is the reverse pattern
`(.*)<revcomp(p1_i)>(.+)<revcomp(p2_i)>(.*)`, and every alternative has
exactly three capture groups. -/
theorem c1_build_regex_alternation (primers : List (Bases × Bases))
    (h : ∀ p ∈ primers, KeyPair p) :
    ∃ alts, build_regex primers = some alts ∧
      alts.length = 2 * primers.length ∧
      (∀ (i : Nat) (p : Bases × Bases), primers[i]? = some p →
        alts[i]? = some (altPattern p.2 p.1) ∧
        ∃ a b, revcomp p.1 = some a ∧ revcomp p.2 = some b ∧
          alts[primers.length + i]? = some (altPattern a b)) ∧
      (∀ alt ∈ alts, countGroups alt = 3) := by
  obtain ⟨alts, hb⟩ := build_regex_isSome h
  obtain ⟨hlen, hfwd, hrev, hshape⟩ := build_regex_spec hb
  refine ⟨alts, hb, hlen, fun i p hp => ⟨hfwd i p hp, hrev i p hp⟩, ?_⟩
  intro alt halt
  obtain ⟨x, y, hxy⟩ := hshape alt halt
  subst hxy
  rfl

/-- C1 witness: a two-pair catalog compiles to four alternatives of the
stated shape. -/
theorem c1_witness :
    ∃ alts, build_regex
        [("AAAA".toList, "CCCC".toList), ("ACGT".toList, "TGCA".toList)] =
        some alts ∧
      alts.length = 2 * 2 ∧
      (∀ (i : Nat) (p : Bases × Bases),
        [("AAAA".toList, "CCCC".toList), ("ACGT".toList, "TGCA".toList)][i]? =
          some p →
        alts[i]? = some (altPattern p.2 p.1) ∧
        ∃ a b, revcomp p.1 = some a ∧ revcomp p.2 = some b ∧
          alts[2 + i]? = some (altPattern a b)) ∧
      (∀ alt ∈ alts, countGroups alt = 3) :=
  c1_build_regex_alternation
    [("AAAA".toList, "CCCC".toList), ("ACGT".toList, "TGCA".toList)]
    (by decide)

/-! ## Group-tuple decoding (`match_position` and the index arithmetic of the
main loop of `cram_scanner.py`) -/

theorem match_position_replicate (k : Nat) (x : Bases)
    (rest : List (Option Bases)) :
    match_position (List.replicate k none ++ some x :: rest) = some k := by
  induction k with
  | zero => rfl
  | succ n ih => simp [List.replicate_succ, match_position, ih]

theorem match_position_groupsOf (n j : Nat) (g : Bases × Bases × Bases) :
    match_position (groupsOf n j g) = some (3 * j) := by
  unfold groupsOf
  rw [List.append_assoc]
  exact match_position_replicate (3 * j) g.1
    ([some g.2.1, some g.2.2] ++ List.replicate (3 * (n - 1 - j)) none)

/-- C2: when alternative `j` of the `2 N`-alternative combined pattern
matches with group captures `g`, the first non-`None` group has index `3 j`,
so the decoded alternative index `rgx_pos // 3` is `j`, the reported
`primer_index` is `j % N`, `is_reverse` holds exactly when `N ≤ j`, and
`j % N` is the catalog index of the pair whose (forward or
reverse-complemented) literals alternative `j` carries. -/
theorem c2_group_decoding (primers : List (Bases × Bases))
    (alts : List (List RegexPiece)) (j : Nat) (g : Bases × Bases × Bases)
    (hN : 0 < primers.length) (hb : build_regex primers = some alts)
    (hj : j < alts.length) :
    match_position (groupsOf alts.length j g) = some (3 * j) ∧
    3 * j / 3 = j ∧
    (3 * j / 3) % primers.length = j % primers.length ∧
    (primers.length ≤ 3 * j / 3 ↔ primers.length ≤ j) ∧
    ∃ pair, primers[j % primers.length]? = some pair ∧
      (j < primers.length → alts[j]? = some (altPattern pair.2 pair.1)) ∧
      (primers.length ≤ j →
        ∃ a b, revcomp pair.1 = some a ∧ revcomp pair.2 = some b ∧
          alts[j]? = some (altPattern a b)) := by
  obtain ⟨hlen, hfwd, hrev, _⟩ := build_regex_spec hb
  have hdiv : 3 * j / 3 = j := Nat.mul_div_cancel_left j (by norm_num)
  have hmod : j % primers.length < primers.length := Nat.mod_lt _ hN
  refine ⟨match_position_groupsOf _ _ _, hdiv, by rw [hdiv], by rw [hdiv], ?_⟩
  obtain ⟨pair, hpair⟩ : ∃ pair, primers[j % primers.length]? = some pair :=
    ⟨_, List.getElem?_eq_getElem hmod⟩
  refine ⟨pair, hpair, ?_, ?_⟩
  · intro hlt
    have heq : j % primers.length = j := Nat.mod_eq_of_lt hlt
    rw [heq] at hpair
    exact hfwd j pair hpair
  · intro hge
    have hj2 : j < 2 * primers.length := by rw [← hlen]; exact hj
    have hsub : j % primers.length = j - primers.length := by
      rw [Nat.mod_eq_sub_mod hge]
      exact Nat.mod_eq_of_lt (by omega)
    rw [hsub] at hpair
    obtain ⟨a, b, ha, hbv, hr⟩ := hrev (j - primers.length) pair hpair
    refine ⟨a, b, ha, hbv, ?_⟩
    rw [show primers.length + (j - primers.length) = j by omega] at hr
    exact hr

/-- C2 witness: with one primer pair and the reverse alternative `j = 1`, the
first non-`None` group index is 3 and the decoded primer index is `1 % 1 = 0`. -/
theorem c2_witness :
    (0 : Nat) < 1 ∧
      match_position (groupsOf 2 1 ("G".toList, "T".toList, "C".toList)) =
        some 3 :=
  ⟨by decide,
    (c2_group_decoding [("AAAA".toList, "CCCC".toList)]
      [altPattern "CCCC".toList "AAAA".toList,
       altPattern "TTTT".toList "GGGG".toList]
      1 ("G".toList, "T".toList, "C".toList)
      (by decide) (by decide) (by decide)).1⟩

/-! ## Properties of the single-alternative greedy match -/

theorem isPrefixOf_append_self (l r : List Char) :
    l.isPrefixOf (l ++ r) = true := by
  induction l with
  | nil => simp [List.isPrefixOf]
  | cons c cs ih => simp [List.isPrefixOf, ih]

theorem isPrefixOf_length_le {l t : List Char} (h : l.isPrefixOf t = true) :
    l.length ≤ t.length := by
  induction l generalizing t with
  | nil => simp
  | cons c cs ih =>
    cases t with
    | nil => simp [List.isPrefixOf] at h
    | cons d ds =>
      simp only [List.isPrefixOf, Bool.and_eq_true] at h
      have := ih h.2
      simp only [List.length_cons]
      omega

theorem occursAt_append (pre lit rest : Bases) :
    occursAt lit (pre ++ (lit ++ rest)) pre.length = true := by
  unfold occursAt
  rw [List.drop_left]
  exact isPrefixOf_append_self lit rest

theorem occursAt_bound {lit s : Bases} {k : Nat} (hne : lit ≠ [])
    (h : occursAt lit s k = true) : k + lit.length ≤ s.length := by
  unfold occursAt at h
  have h1 := isPrefixOf_length_le h
  rw [List.length_drop] at h1
  have h2 : 1 ≤ lit.length := by
    cases lit
    · exact absurd rfl hne
    · simp
  omega

/-- Semantic matching of one alternative `(.*)litA(.+)litB(.*)`: `litA`
occurs somewhere, and `litB` occurs after it with a non-empty gap. -/
def AltMatch (litA litB s : Bases) : Prop :=
  ∃ k m, 1 ≤ m ∧ occursAt litA s k = true ∧
    occursAt litB s (k + litA.length + m) = true

theorem viable_eq_true {litA litB s : Bases} {k : Nat} :
    viable litA litB s k = true ↔
      occursAt litA s k = true ∧
        ∃ m, 1 ≤ m ∧ m ≤ s.length ∧
          occursAt litB s (k + litA.length + m) = true := by
  unfold viable
  constructor
  · intro hv
    rw [Bool.and_eq_true] at hv
    obtain ⟨h1, h2⟩ := hv
    rw [List.any_eq_true] at h2
    obtain ⟨m, hm, hmp⟩ := h2
    rw [Bool.and_eq_true, decide_eq_true_eq] at hmp
    rw [List.mem_range] at hm
    exact ⟨h1, m, hmp.1, by omega, hmp.2⟩
  · rintro ⟨h1, m, hm1, hm2, hm3⟩
    rw [Bool.and_eq_true]
    refine ⟨h1, ?_⟩
    rw [List.any_eq_true]
    refine ⟨m, by rw [List.mem_range]; omega, ?_⟩
    rw [Bool.and_eq_true, decide_eq_true_eq]
    exact ⟨hm1, hm3⟩

theorem matchAlt_isSome {litA litB s : Bases}
    (h : ∃ k, k ≤ s.length ∧ viable litA litB s k = true) :
    ∃ g, matchAlt litA litB s = some g := by
  obtain ⟨k, hk, hv⟩ := h
  unfold matchAlt
  have hf : ((List.range (s.length + 1)).reverse.find?
      (viable litA litB s)).isSome := by
    rw [List.find?_isSome]
    exact ⟨k, by rw [List.mem_reverse, List.mem_range]; omega, hv⟩
  obtain ⟨k', hk'⟩ := Option.isSome_iff_exists.mp hf
  rw [hk']
  dsimp only
  have hv' := List.find?_some hk'
  rw [viable_eq_true] at hv'
  obtain ⟨_, m, hm1, hm2, hm3⟩ := hv'
  have hf2 : ((List.range (s.length + 1)).reverse.find?
      (fun m => decide (1 ≤ m) &&
        occursAt litB s (k' + litA.length + m))).isSome := by
    rw [List.find?_isSome]
    refine ⟨m, by rw [List.mem_reverse, List.mem_range]; omega, ?_⟩
    rw [Bool.and_eq_true, decide_eq_true_eq]
    exact ⟨hm1, hm3⟩
  obtain ⟨m', hm'⟩ := Option.isSome_iff_exists.mp hf2
  rw [hm']
  exact ⟨_, rfl⟩

theorem altMatch_viable {litA litB s : Bases} (hne : litB ≠ [])
    (h : AltMatch litA litB s) :
    ∃ k, k ≤ s.length ∧ viable litA litB s k = true := by
  obtain ⟨k, m, hm, ha, hb⟩ := h
  have hbound := occursAt_bound hne hb
  refine ⟨k, by omega, ?_⟩
  rw [viable_eq_true]
  exact ⟨ha, m, hm, by omega, hb⟩

theorem matchAlt_eq_none {litA litB s : Bases} (h : ¬ AltMatch litA litB s) :
    matchAlt litA litB s = none := by
  unfold matchAlt
  rcases hf : (List.range (s.length + 1)).reverse.find?
      (viable litA litB s) with _ | k
  · rfl
  · exfalso
    have hv := List.find?_some hf
    rw [viable_eq_true] at hv
    obtain ⟨h1, m, hm1, hm2, hm3⟩ := hv
    exact h ⟨k, m, hm1, h1, hm3⟩

theorem matchAlt_ne_none {litA litB s : Bases} (hne : litB ≠ [])
    (h : AltMatch litA litB s) : matchAlt litA litB s ≠ none := by
  obtain ⟨g, hg⟩ := matchAlt_isSome (altMatch_viable hne h)
  rw [hg]
  exact Option.some_ne_none g

/-! ## Properties of the combined search -/

theorem searchCombined_spec (alts : List (Bases × Bases)) (s : Bases) :
    (searchCombined alts s = none ∧
      ∀ ab ∈ alts, matchAlt ab.1 ab.2 s = none) ∨
    (∃ j g ab, searchCombined alts s = some (j, g) ∧ alts[j]? = some ab ∧
      matchAlt ab.1 ab.2 s = some g ∧
      ∀ (j' : Nat) (ab' : Bases × Bases), j' < j → alts[j']? = some ab' →
        matchAlt ab'.1 ab'.2 s = none) := by
  induction alts with
  | nil => exact Or.inl ⟨rfl, by simp⟩
  | cons ab rest ih =>
    rcases hm : matchAlt ab.1 ab.2 s with _ | g
    · rcases ih with ⟨hn, hall⟩ | ⟨j, g, ab', hs, hget, hm', hmin⟩
      · refine Or.inl ⟨?_, ?_⟩
        · unfold searchCombined
          rw [hm, hn]
        · rw [List.forall_mem_cons]
          exact ⟨hm, hall⟩
      · refine Or.inr ⟨j + 1, g, ab', ?_, ?_, hm', ?_⟩
        · unfold searchCombined
          rw [hm, hs]
        · rw [List.getElem?_cons_succ]
          exact hget
        · intro j' ab'' hlt hget'
          match j' with
          | 0 =>
            rw [List.getElem?_cons_zero] at hget'
            injection hget' with hget'
            subst hget'
            exact hm
          | j'' + 1 =>
            rw [List.getElem?_cons_succ] at hget'
            exact hmin j'' ab'' (by omega) hget'
    · refine Or.inr ⟨0, g, ab, ?_, List.getElem?_cons_zero, hm, ?_⟩
      · unfold searchCombined
        rw [hm]
      · intro j' ab' hlt _
        omega

theorem searchCombined_none_iff (alts : List (Bases × Bases)) (s : Bases) :
    searchCombined alts s = none ↔
      ∀ ab ∈ alts, matchAlt ab.1 ab.2 s = none := by
  rcases searchCombined_spec alts s with ⟨hn, hall⟩ | ⟨j, g, ab, hs, hget, hm, _⟩
  · exact ⟨fun _ => hall, fun _ => hn⟩
  · constructor
    · intro h
      rw [h] at hs
      cases hs
    · intro h
      have := h ab (List.getElem?_mem hget)
      rw [this] at hm
      cases hm

theorem searchCombined_first {alts : List (Bases × Bases)} {s : Bases}
    {j : Nat} {ab : Bases × Bases} (hj : alts[j]? = some ab)
    (hm : matchAlt ab.1 ab.2 s ≠ none) :
    ∃ j' g, searchCombined alts s = some (j', g) ∧ j' ≤ j := by
  rcases searchCombined_spec alts s with ⟨_, hall⟩ | ⟨j0, g, ab0, hs, _, _, hmin⟩
  · exact absurd (hall ab (List.getElem?_mem hj)) hm
  · refine ⟨j0, g, hs, ?_⟩
    by_contra hgt
    exact hm (hmin j ab (by omega) hj)

/-! ## Behaviour of the exact-strategy read annotator -/

theorem getD_replicate_append (k i : Nat) (l : List (Option Bases)) :
    (List.replicate k (none : Option Bases) ++ l).getD (k + i) none =
      l.getD i none := by
  induction k with
  | zero => rw [Nat.zero_add]; rfl
  | succ n ih =>
    rw [List.replicate_succ, show n + 1 + i = (n + i) + 1 from by omega,
      List.cons_append, List.getD_cons_succ]
    exact ih

theorem groupsOf_getD (n j : Nat) (g : Bases × Bases × Bases) :
    (groupsOf n j g).getD (3 * j) none = some g.1 ∧
    (groupsOf n j g).getD (3 * j + 1) none = some g.2.1 ∧
    (groupsOf n j g).getD (3 * j + 2) none = some g.2.2 := by
  unfold groupsOf
  rw [List.append_assoc]
  refine ⟨?_, ?_, ?_⟩
  · have h := getD_replicate_append (3 * j) 0
      ([some g.1, some g.2.1, some g.2.2] ++
        List.replicate (3 * (n - 1 - j)) none)
    rw [Nat.add_zero] at h
    rw [h]
    rfl
  · rw [getD_replicate_append (3 * j) 1
      ([some g.1, some g.2.1, some g.2.2] ++
        List.replicate (3 * (n - 1 - j)) none)]
    rfl
  · rw [getD_replicate_append (3 * j) 2
      ([some g.1, some g.2.1, some g.2.2] ++
        List.replicate (3 * (n - 1 - j)) none)]
    rfl

theorem searchCombined_ne_nil {alts : List (Bases × Bases)} {seq : Bases}
    {r : Nat × (Bases × Bases × Bases)}
    (h : searchCombined alts seq = some r) : alts ≠ [] := by
  intro hnil
  subst hnil
  cases h

theorem reGroups_eq_none {alts : List (List RegexPiece)} {seq : Bases}
    (hne : alts ≠ []) (hs : searchCombined (alts.map altLits) seq = none) :
    reGroups alts seq = none := by
  unfold reGroups
  cases alts with
  | nil => exact absurd rfl hne
  | cons a rest =>
    dsimp only
    rw [hs]

theorem reGroups_of_searchCombined {alts : List (List RegexPiece)}
    {seq : Bases} {j : Nat} {g : Bases × Bases × Bases}
    (hs : searchCombined (alts.map altLits) seq = some (j, g)) :
    reGroups alts seq = some (groupsOf alts.length j g) := by
  have hne : alts ≠ [] := by
    intro hnil
    subst hnil
    cases hs
  unfold reGroups
  cases alts with
  | nil => exact absurd rfl hne
  | cons a rest =>
    dsimp only
    rw [hs]

/-- Over an empty catalog the combined pattern `re.compile('')` matches every
read with an empty group tuple, `match_position` returns `None`, and the main
loop crashes on `None // 3` — an uncaught `TypeError` on every read. -/
theorem annotate_exact_empty_catalog (seq : Bases) :
    annotate_exact [] seq = Except.error ScanError.typeErr := rfl

theorem annotate_exact_nomatch {primers : List (Bases × Bases)}
    {alts : List (List RegexPiece)} {seq : Bases}
    (hb : build_regex primers = some alts)
    (hg : reGroups alts seq = none) :
    annotate_exact primers seq = Except.ok none := by
  unfold annotate_exact
  rw [hb]
  dsimp only
  rw [hg]

theorem annotate_exact_forward {primers : List (Bases × Bases)}
    {alts : List (List RegexPiece)} {seq : Bases} {j : Nat}
    {g : Bases × Bases × Bases}
    (hb : build_regex primers = some alts)
    (hs : searchCombined (alts.map altLits) seq = some (j, g))
    (hj : j < primers.length) :
    annotate_exact primers seq =
      Except.ok (some ⟨j, g.1, (primers.getD j ([], [])).2, g.2.1,
                       (primers.getD j ([], [])).1, g.2.2, false⟩) := by
  unfold annotate_exact
  rw [hb]
  dsimp only
  rw [reGroups_of_searchCombined hs]
  dsimp only
  rw [match_position_groupsOf]
  dsimp only
  obtain ⟨hg1, hg2, hg3⟩ := groupsOf_getD alts.length j g
  rw [hg1, hg2, hg3]
  dsimp only
  rw [show 3 * j / 3 = j from Nat.mul_div_cancel_left j (by norm_num)]
  rw [decide_eq_false (by omega : ¬ primers.length ≤ j)]
  rw [Nat.mod_eq_of_lt hj]
  rfl

/-- C3 counterexample: with catalog `[(T, C), (TT, CC)]` the synthetic read
for index 1, `"" + CC + A + TT + "" = CCATT`, is claimed to report
`primer_index = 1` with insert `A`; the engine's combined search instead
matches the earlier alternative 0 (`(.*)C(.+)T(.*)`) and reports
`primer_index = 0` with insert `AT`. -/
theorem c3_counterexample :
    ¬ ∃ row : Row,
      annotate_exact [("T".toList, "C".toList), ("TT".toList, "CC".toList)]
          "CCATT".toList = Except.ok (some row) ∧
        row.primerpos = 1 ∧ row.orientation = false ∧
        row.sequence = "A".toList := by
  rintro ⟨row, heq, hpos, -, -⟩
  have hc : annotate_exact
      [("T".toList, "C".toList), ("TT".toList, "CC".toList)]
      "CCATT".toList =
      Except.ok (some ⟨0, "C".toList, "C".toList, "AT".toList, "T".toList,
        [], false⟩) := by
    rfl
  rw [hc] at heq
  injection heq with heq
  injection heq with heq
  rw [← heq] at hpos
  exact absurd hpos (by decide)

/-- C3 amended: for a synthetic read `prefix + p2 + middle + p1 + suffix`
(all parts uppercase, `middle` non-empty, pair `(p1, p2)` at catalog index
`i`), the exact-strategy engine does produce an output row with
`is_reverse = False`, but its `primer_index` is only guaranteed to be the
first matching alternative, hence at most `i`; the captured insert is the
greedy capture, not necessarily `middle` (see the counterexample). -/
theorem c3_synthetic_read (primers : List (Bases × Bases)) (i : Nat)
    (p : Bases × Bases) (pre mid suf : Bases)
    (hkeys : ∀ q ∈ primers, KeyPair q)
    (hp : primers[i]? = some p) (hmid : mid ≠ [])
    (hup : ∀ c ∈ pre ++ mid ++ suf, c.toUpper = c) :
    ∃ row,
      annotate_exact primers
          (pre ++ (p.2 ++ (mid ++ (p.1 ++ suf)))) =
        Except.ok (some row) ∧
      row.orientation = false ∧ row.primerpos ≤ i := by
  obtain ⟨alts, hb⟩ := build_regex_isSome hkeys
  obtain ⟨hlen, hfwd, -, -⟩ := build_regex_spec hb
  have hi : i < primers.length := (List.getElem?_eq_some.mp hp).1
  have halts : (alts.map altLits)[i]? = some (p.2, p.1) := by
    rw [List.getElem?_map altLits alts i, hfwd i p hp]
    rfl
  have hA : occursAt p.2 (pre ++ (p.2 ++ (mid ++ (p.1 ++ suf))))
      pre.length = true := occursAt_append pre p.2 _
  have hB : occursAt p.1 (pre ++ (p.2 ++ (mid ++ (p.1 ++ suf))))
      (pre.length + p.2.length + mid.length) = true := by
    have hassoc : pre ++ (p.2 ++ (mid ++ (p.1 ++ suf))) =
        ((pre ++ p.2) ++ mid) ++ (p.1 ++ suf) := by
      simp [List.append_assoc]
    rw [hassoc]
    have hlen2 : ((pre ++ p.2) ++ mid).length =
        pre.length + p.2.length + mid.length := by simp; omega
    rw [← hlen2]
    unfold occursAt
    rw [List.drop_left]
    exact isPrefixOf_append_self p.1 suf
  have hmlen : 1 ≤ mid.length := by
    cases mid
    · exact absurd rfl hmid
    · simp
  have hv : viable p.2 p.1 (pre ++ (p.2 ++ (mid ++ (p.1 ++ suf))))
      pre.length = true := by
    rw [viable_eq_true]
    refine ⟨hA, mid.length, hmlen, by simp; omega, hB⟩
  obtain ⟨g0, hg0⟩ := matchAlt_isSome ⟨pre.length, by simp, hv⟩
  obtain ⟨j', g, hs, hj'⟩ :=
    searchCombined_first halts (by rw [hg0]; exact Option.some_ne_none g0)
  have hj'N : j' < primers.length := by omega
  exact ⟨_, annotate_exact_forward hb hs hj'N, rfl, hj'⟩

/-- C3 witness for the amended claim: read `GG + CCCC + TT + AAAA + G` over
the one-pair catalog `[(AAAA, CCCC)]` yields a forward row with
`primer_index = 0`. -/
theorem c3_witness :
    ∃ row,
      annotate_exact [("AAAA".toList, "CCCC".toList)]
          ("GG".toList ++ ("CCCC".toList ++ ("TT".toList ++
            ("AAAA".toList ++ "G".toList)))) =
        Except.ok (some row) ∧
      row.orientation = false ∧ row.primerpos ≤ 0 :=
  c3_synthetic_read [("AAAA".toList, "CCCC".toList)] 0
    ("AAAA".toList, "CCCC".toList) "GG".toList "TT".toList "G".toList
    (by decide) (by decide) (by decide) (by decide)

/-- C5 counterexample: with the well-formed catalog `[(AA, CC)]`, the read
`XTTQGGX` (characters `X` and `Q` outside the IUPAC alphabet) matches the
reverse alternative `(.*)TT(.+)GG(.*)`, and the annotator then passes the
captured read substrings through `revcomp`, raising the unknown-base error —
contradicting the claim that annotating a read never raises it. -/
theorem c5_counterexample :
    annotate_exact [("AA".toList, "CC".toList)] "XTTQGGX".toList =
      Except.error ScanError.unknownBase := by
  rfl

/-- C5 amended: over a catalog whose primers are all in the recognized
alphabet, annotating a read in the exact strategy raises no unknown-base
error as long as the combined pattern does not match the read, or the first
matching alternative is forward-oriented; only a reverse-oriented match
feeds captured read substrings to `revcomp` (and can then fail, see the
counterexample). -/
theorem c5_no_error_unless_reverse (primers : List (Bases × Bases))
    (seq : Bases) (alts : List (List RegexPiece))
    (hb : build_regex primers = some alts) :
    (reGroups alts seq = none →
      annotate_exact primers seq = Except.ok none) ∧
    (∀ (j : Nat) (g : Bases × Bases × Bases),
      searchCombined (alts.map altLits) seq = some (j, g) →
      j < primers.length →
      ∃ row, annotate_exact primers seq = Except.ok (some row) ∧
        row.orientation = false) := by
  constructor
  · exact fun hg => annotate_exact_nomatch hb hg
  · intro j g hs hj
    exact ⟨_, annotate_exact_forward hb hs hj, rfl⟩

/-- C5 witness: with catalog `[(AAAA, CCCC)]`, the non-matching read `TG`
yields no row and no error, and the forward-matching read `GGCCCCTTAAAAG`
yields a forward row and no error. -/
theorem c5_witness :
    annotate_exact [("AAAA".toList, "CCCC".toList)] "TG".toList =
        Except.ok none ∧
      ∃ row,
        annotate_exact [("AAAA".toList, "CCCC".toList)]
          "GGCCCCTTAAAAG".toList = Except.ok (some row) ∧
        row.orientation = false :=
  ⟨(c5_no_error_unless_reverse [("AAAA".toList, "CCCC".toList)] "TG".toList
      [altPattern "CCCC".toList "AAAA".toList,
       altPattern "TTTT".toList "GGGG".toList] (by rfl)).1 (by rfl),
   (c5_no_error_unless_reverse [("AAAA".toList, "CCCC".toList)]
      "GGCCCCTTAAAAG".toList
      [altPattern "CCCC".toList "AAAA".toList,
       altPattern "TTTT".toList "GGGG".toList] (by rfl)).2 0
      ("GG".toList, "TT".toList, "G".toList) (by rfl) (by decide)⟩

/-! ## Approximate strategy (`pcr_scanner.py`) -/

/-- Python slice `s[a:b]` for non-negative indices (clamping, empty when
`b <= a`). -/
def pySlice (s : Bases) (a b : Nat) : Bases := (s.drop a).take (b - a)

/-- Helper of `levDist`, structurally recursive on a fuel argument so that
it evaluates by kernel reduction; the fuel `s.length + t.length` supplied by
`levDist` always suffices, so the fuel-exhausted arm is never reached. -/
def levDistAux : Nat → List Char → List Char → Nat
  | _, [], t => t.length
  | _, s, [] => s.length
  | 0, _, _ => 0
  | fuel + 1, a :: s, b :: t =>
    if a = b then levDistAux fuel s t
    else 1 + min (levDistAux fuel s t)
        (min (levDistAux fuel (a :: s) t) (levDistAux fuel s (b :: t)))

/-- Levenshtein edit distance (unit-cost substitution, insertion and
deletion), the distance bounded by `max_l_dist` in the external
`fuzzysearch.find_near_matches`. -/
def levDist (s t : List Char) : Nat := levDistAux (s.length + t.length) s t

/-- An approximate match span inside a read (`match.start`, `match.end` of
the `fuzzysearch` library). -/
structure FMatch where
  s : Nat
  e : Nat
deriving DecidableEq

/-- Model of `fuzzysearch.find_near_matches(pat, string, max_l_dist)`:
all spans `[a, b)` of the string whose substring is within edit distance
`maxDist` of the pattern, in lexicographic span order.  The library returns a
non-empty list exactly when such a span exists, which is the only property
the scanner's control flow relies on. -/
def find_near_matches (pat string : Bases) (maxDist : Nat) : List FMatch :=
  (List.range (string.length + 1)).flatMap (fun a =>
    (List.range (string.length + 1)).filterMap (fun b =>
      if a ≤ b ∧ levDist pat (pySlice string a b) ≤ maxDist then
        some ⟨a, b⟩
      else none))

/-- Function `fuzzy_search(string, primer_pairs)` of `pcr_scanner.py`: for
each pair in order, search for `pair[0]` with `max_l_dist=2`; only if found,
search for `pair[1]` with the same budget; return the first index where both
are found, with the first match of each search. -/
def fuzzy_search (string : Bases) :
    List (Bases × Bases) → Option (Nat × FMatch × FMatch)
  | [] => none
  | pair :: rest =>
    match find_near_matches pair.1 string 2 with
    | [] =>
      match fuzzy_search string rest with
      | some r => some (r.1 + 1, r.2)
      | none => none
    | m1 :: _ =>
      match find_near_matches pair.2 string 2 with
      | [] =>
        match fuzzy_search string rest with
        | some r => some (r.1 + 1, r.2)
        | none => none
      | m2 :: _ => some (0, m1, m2)

/-- Instrumentation of `fuzzy_search`: the sequence of patterns the code
hands to `fuzzysearch.find_near_matches`, in execution order.  For each pair
the loop searches `pair[0]` (the pair's first element); only if that search
succeeds does it search `pair[1]`; it stops at the first pair for which both
succeed. -/
def searchedPatterns (string : Bases) : List (Bases × Bases) → List Bases
  | [] => []
  | pair :: rest =>
    match find_near_matches pair.1 string 2 with
    | [] => pair.1 :: searchedPatterns string rest
    | _ :: _ =>
      match find_near_matches pair.2 string 2 with
      | [] => pair.1 :: pair.2 :: searchedPatterns string rest
      | _ :: _ => [pair.1, pair.2]

/-- Search order stated by the claim, for comparison with `searchedPatterns`:
the claim's words say the engine "first searches the read for the pair's
second element (oligo A) ... and only if that is found searches for the
pair's first element (oligo B)". -/
def searchedPatternsClaimOrder (string : Bases) :
    List (Bases × Bases) → List Bases
  | [] => []
  | pair :: rest =>
    match find_near_matches pair.2 string 2 with
    | [] => pair.2 :: searchedPatternsClaimOrder string rest
    | _ :: _ =>
      match find_near_matches pair.1 string 2 with
      | [] => pair.2 :: pair.1 :: searchedPatternsClaimOrder string rest
      | _ :: _ => [pair.2, pair.1]

/-- Orientation dispatch of the `pcr_scanner.py` main loop: search the
forward catalog; only if that fails, search the reverse-complemented
catalog.  The boolean is `primer_is_reverse`. -/
def scan_approx (primers rev_primers : List (Bases × Bases)) (seq : Bases) :
    Option (Nat × FMatch × FMatch × Bool) :=
  match fuzzy_search seq primers with
  | some (i, m1, m2) => some (i, m1, m2, false)
  | none =>
    match fuzzy_search seq rev_primers with
    | some (i, m1, m2) => some (i, m1, m2, true)
    | none => none

/-- Python tuple comparison `(match1.start, match1.end) <
(match2.start, match2.end)`. -/
def lexLt (m1 m2 : FMatch) : Bool :=
  decide (m1.s < m2.s) || (decide (m1.s = m2.s) && decide (m1.e < m2.e))

/-- One output row of the approximate strategy (`pcr_scanner.py` main loop);
`primerRev` is `primer_is_reverse` ('-' orientation). -/
structure RowA where
  primerid : Nat
  preleft : Bases
  left : Bases
  sequence : Bases
  right : Bases
  postright : Bases
  umi : Bases
  primerRev : Bool
deriving DecidableEq

/-- Main loop body of `pcr_scanner.py` for one read: fuzzy-search both
orientations, order the two match spans, cut the read into the five flanking
fields, and extract the UMI (first 5 bases of the post-right flank for a
reverse match, last 5 bases of the pre-left flank otherwise). -/
def annotate_approx (primers rev_primers : List (Bases × Bases))
    (seq : Bases) : Option RowA :=
  match scan_approx primers rev_primers seq with
  | none => none
  | some (i, m1, m2, prev) =>
    let l := cond (lexLt m1 m2) m1 m2
    let r := cond (lexLt m1 m2) m2 m1
    let pre := seq.take l.s
    let lp := pySlice seq l.s l.e
    let cap := pySlice seq l.e r.s
    let rp := pySlice seq r.s r.e
    let post := seq.drop r.e
    let umi := cond prev (post.take 5) (pre.drop (pre.length - 5))
    some ⟨i, pre, lp, cap, rp, post, umi, prev⟩

/-- Existence of an approximate occurrence of `pat` in `s` within edit
distance 2 — the semantic condition behind a non-empty
`find_near_matches(pat, s, max_l_dist=2)`. -/
def hasNearMatch (pat s : Bases) : Prop :=
  ∃ a b, a ≤ b ∧ b ≤ s.length ∧ levDist pat (pySlice s a b) ≤ 2

/-! ## Properties of the approximate search -/

theorem mem_of_headEq {α : Type} {l : List α} {a : α}
    (h : l.head? = some a) : a ∈ l := by
  cases l with
  | nil => cases h
  | cons x xs =>
    injection h with h
    subst h
    exact List.mem_cons_self _ _

theorem find_near_matches_ne_nil {pat s : Bases} :
    find_near_matches pat s 2 ≠ [] ↔ hasNearMatch pat s := by
  constructor
  · intro h
    obtain ⟨m, hm⟩ := List.exists_mem_of_ne_nil _ h
    unfold find_near_matches at hm
    rw [List.mem_flatMap] at hm
    obtain ⟨a, ha, hm⟩ := hm
    rw [List.mem_filterMap] at hm
    obtain ⟨b, hb, hm⟩ := hm
    rw [List.mem_range] at hb
    split at hm
    · rename_i hcond
      exact ⟨a, b, hcond.1, by omega, hcond.2⟩
    · cases hm
  · rintro ⟨a, b, hab, hbl, hlev⟩
    have hmem : FMatch.mk a b ∈ find_near_matches pat s 2 := by
      unfold find_near_matches
      rw [List.mem_flatMap]
      refine ⟨a, by rw [List.mem_range]; omega, ?_⟩
      rw [List.mem_filterMap]
      refine ⟨b, by rw [List.mem_range]; omega, ?_⟩
      rw [if_pos ⟨hab, hlev⟩]
    exact List.ne_nil_of_mem hmem

theorem find_near_matches_wf {pat s : Bases} {d : Nat} {m : FMatch}
    (h : m ∈ find_near_matches pat s d) : m.s ≤ m.e ∧ m.e ≤ s.length := by
  unfold find_near_matches at h
  rw [List.mem_flatMap] at h
  obtain ⟨a, ha, h⟩ := h
  rw [List.mem_filterMap] at h
  obtain ⟨b, hb, h⟩ := h
  rw [List.mem_range] at hb
  split at h
  · rename_i hcond
    injection h with h
    subst h
    refine ⟨hcond.1, ?_⟩
    show b ≤ s.length
    omega
  · cases h

theorem fuzzy_search_spec (string : Bases) (pairs : List (Bases × Bases)) :
    (fuzzy_search string pairs = none ∧
      ∀ q ∈ pairs, find_near_matches q.1 string 2 = [] ∨
        find_near_matches q.2 string 2 = []) ∨
    (∃ i m1 m2 p, fuzzy_search string pairs = some (i, m1, m2) ∧
      pairs[i]? = some p ∧
      (find_near_matches p.1 string 2).head? = some m1 ∧
      (find_near_matches p.2 string 2).head? = some m2 ∧
      ∀ (j : Nat) (q : Bases × Bases), j < i → pairs[j]? = some q →
        find_near_matches q.1 string 2 = [] ∨
          find_near_matches q.2 string 2 = []) := by
  induction pairs with
  | nil => exact Or.inl ⟨rfl, by simp⟩
  | cons pair rest ih =>
    rcases h1 : find_near_matches pair.1 string 2 with _ | ⟨m1, t1⟩
    · rcases ih with ⟨hn, hall⟩ | ⟨i, m1, m2, p, hs, hget, hh1, hh2, hmin⟩
      · refine Or.inl ⟨?_, ?_⟩
        · unfold fuzzy_search
          rw [h1, hn]
        · rw [List.forall_mem_cons]
          exact ⟨Or.inl h1, hall⟩
      · refine Or.inr ⟨i + 1, m1, m2, p, ?_,
          by rw [List.getElem?_cons_succ]; exact hget, hh1, hh2, ?_⟩
        · unfold fuzzy_search
          rw [h1, hs]
        · intro j q hlt hget'
          match j with
          | 0 =>
            rw [List.getElem?_cons_zero] at hget'
            injection hget' with hget'
            subst hget'
            exact Or.inl h1
          | j' + 1 =>
            rw [List.getElem?_cons_succ] at hget'
            exact hmin j' q (by omega) hget'
    · rcases h2 : find_near_matches pair.2 string 2 with _ | ⟨m2, t2⟩
      · rcases ih with ⟨hn, hall⟩ | ⟨i, m1', m2', p, hs, hget, hh1, hh2, hmin⟩
        · refine Or.inl ⟨?_, ?_⟩
          · unfold fuzzy_search
            rw [h1, h2, hn]
          · rw [List.forall_mem_cons]
            exact ⟨Or.inr h2, hall⟩
        · refine Or.inr ⟨i + 1, m1', m2', p, ?_,
            by rw [List.getElem?_cons_succ]; exact hget, hh1, hh2, ?_⟩
          · unfold fuzzy_search
            rw [h1, h2, hs]
          · intro j q hlt hget'
            match j with
            | 0 =>
              rw [List.getElem?_cons_zero] at hget'
              injection hget' with hget'
              subst hget'
              exact Or.inr h2
            | j' + 1 =>
              rw [List.getElem?_cons_succ] at hget'
              exact hmin j' q (by omega) hget'
      · refine Or.inr ⟨0, m1, m2, pair, ?_, List.getElem?_cons_zero,
          by rw [h1]; rfl, by rw [h2]; rfl, ?_⟩
        · unfold fuzzy_search
          rw [h1, h2]
        · intro j q hlt _
          omega

theorem fuzzy_search_found {string : Bases} {pairs : List (Bases × Bases)}
    {i : Nat} {m1 m2 : FMatch}
    (h : fuzzy_search string pairs = some (i, m1, m2)) :
    ∃ p, pairs[i]? = some p ∧
      hasNearMatch p.1 string ∧ hasNearMatch p.2 string ∧
      ∀ (j : Nat) (q : Bases × Bases), j < i → pairs[j]? = some q →
        ¬ (hasNearMatch q.1 string ∧ hasNearMatch q.2 string) := by
  rcases fuzzy_search_spec string pairs with ⟨hn, -⟩ |
    ⟨i', m1', m2', p, hs, hget, hh1, hh2, hmin⟩
  · rw [hn] at h
    cases h
  · rw [hs] at h
    injection h with h
    injection h with hi h
    injection h with hm1 hm2
    subst hi
    refine ⟨p, hget, ?_, ?_, ?_⟩
    · exact find_near_matches_ne_nil.mp
        (List.ne_nil_of_mem (mem_of_headEq hh1))
    · exact find_near_matches_ne_nil.mp
        (List.ne_nil_of_mem (mem_of_headEq hh2))
    · intro j q hlt hget'
      rintro ⟨hq1, hq2⟩
      rcases hmin j q hlt hget' with hnil | hnil
      · exact (find_near_matches_ne_nil.mpr hq1) hnil
      · exact (find_near_matches_ne_nil.mpr hq2) hnil

theorem fuzzy_search_none_found {string : Bases}
    {pairs : List (Bases × Bases)} (h : fuzzy_search string pairs = none) :
    ∀ q ∈ pairs, ¬ (hasNearMatch q.1 string ∧ hasNearMatch q.2 string) := by
  rcases fuzzy_search_spec string pairs with ⟨-, hall⟩ |
    ⟨i, m1, m2, p, hs, -, -, -, -⟩
  · intro q hq
    rintro ⟨h1, h2⟩
    rcases hall q hq with hnil | hnil
    · exact (find_near_matches_ne_nil.mpr h1) hnil
    · exact (find_near_matches_ne_nil.mpr h2) hnil
  · rw [hs] at h
    cases h

theorem fuzzy_search_eq_none {string : Bases} {pairs : List (Bases × Bases)}
    (h : ∀ q ∈ pairs, ¬ (hasNearMatch q.1 string ∧ hasNearMatch q.2 string)) :
    fuzzy_search string pairs = none := by
  rcases fuzzy_search_spec string pairs with ⟨hn, -⟩ |
    ⟨i, m1, m2, p, hs, hget, hh1, hh2, -⟩
  · exact hn
  · exfalso
    apply h p (List.getElem?_mem hget)
    exact ⟨find_near_matches_ne_nil.mp (List.ne_nil_of_mem (mem_of_headEq hh1)),
      find_near_matches_ne_nil.mp (List.ne_nil_of_mem (mem_of_headEq hh2))⟩

theorem fuzzy_search_wf {string : Bases} {pairs : List (Bases × Bases)}
    {i : Nat} {m1 m2 : FMatch}
    (h : fuzzy_search string pairs = some (i, m1, m2)) :
    (m1.s ≤ m1.e ∧ m1.e ≤ string.length) ∧
      (m2.s ≤ m2.e ∧ m2.e ≤ string.length) := by
  rcases fuzzy_search_spec string pairs with ⟨hn, -⟩ |
    ⟨i', m1', m2', p, hs, -, hh1, hh2, -⟩
  · rw [hn] at h
    cases h
  · rw [hs] at h
    injection h with h
    injection h with hi h
    injection h with hm1 hm2
    subst hm1
    subst hm2
    exact ⟨find_near_matches_wf (mem_of_headEq hh1),
      find_near_matches_wf (mem_of_headEq hh2)⟩

theorem scan_approx_wf {primers rev_primers : List (Bases × Bases)}
    {seq : Bases} {i : Nat} {m1 m2 : FMatch} {ob : Bool}
    (h : scan_approx primers rev_primers seq = some (i, m1, m2, ob)) :
    (m1.s ≤ m1.e ∧ m1.e ≤ seq.length) ∧
      (m2.s ≤ m2.e ∧ m2.e ≤ seq.length) := by
  unfold scan_approx at h
  rcases hf : fuzzy_search seq primers with _ | ⟨⟨i0, m10, m20⟩⟩ <;>
    rw [hf] at h
  · rcases hr : fuzzy_search seq rev_primers with _ | ⟨⟨i1, m11, m21⟩⟩ <;>
      rw [hr] at h
    · cases h
    · dsimp only at h
      injection h with h
      injection h with hi h
      injection h with hm1 h
      injection h with hm2 hob
      subst hm1
      subst hm2
      exact fuzzy_search_wf hr
  · dsimp only at h
    injection h with h
    injection h with hi h
    injection h with hm1 h
    injection h with hm2 hob
    subst hm1
    subst hm2
    exact fuzzy_search_wf hf

/-! ## Flank-span arithmetic -/

theorem take_pySlice (s : Bases) (a b : Nat) (h : a ≤ b) :
    s.take a ++ pySlice s a b = s.take b := by
  unfold pySlice
  rw [← List.take_add]
  congr 1
  omega

theorem slices_concat (s : Bases) (a b c d : Nat) (hab : a ≤ b) (hbc : b ≤ c)
    (hcd : c ≤ d) :
    s.take a ++ pySlice s a b ++ pySlice s b c ++ pySlice s c d ++
      s.drop d = s := by
  rw [take_pySlice s a b hab, take_pySlice s b c hbc, take_pySlice s c d hcd]
  exact List.take_append_drop d s

/-- C10: whenever the approximate strategy emits a row and the two resolved
match spans do not overlap (left end at most right start), the five output
fields concatenate back to the whole read. -/
theorem c10_fields_concat (primers rev_primers : List (Bases × Bases))
    (seq : Bases) (row : RowA) (i : Nat) (m1 m2 : FMatch) (ob : Bool)
    (hscan : scan_approx primers rev_primers seq = some (i, m1, m2, ob))
    (hrow : annotate_approx primers rev_primers seq = some row)
    (hno : (cond (lexLt m1 m2) m1 m2).e ≤ (cond (lexLt m1 m2) m2 m1).s) :
    row.preleft ++ row.left ++ row.sequence ++ row.right ++ row.postright =
      seq := by
  obtain ⟨⟨h1s, h1e⟩, h2s, h2e⟩ := scan_approx_wf hscan
  unfold annotate_approx at hrow
  rw [hscan] at hrow
  dsimp only at hrow
  injection hrow with hrow
  subst hrow
  dsimp only
  rcases Bool.eq_false_or_eq_true (lexLt m1 m2) with hlt | hlt <;>
    rw [hlt] at hno ⊢ <;> dsimp only [cond] at hno ⊢
  · exact slices_concat seq m1.s m1.e m2.s m2.e h1s hno h2s
  · exact slices_concat seq m2.s m2.e m1.s m1.e h2s hno h1s

/-- C10 witness: catalog `[(AAA, CCC)]`, read `AAACCC`; spans `[0,1)` and
`[1,4)` do not overlap and the five fields concatenate to the read. -/
theorem c10_witness :
    ([] : Bases) ++ "A".toList ++ ([] : Bases) ++ "AAC".toList ++
        "CC".toList = "AAACCC".toList :=
  c10_fields_concat [("AAA".toList, "CCC".toList)]
    [("TTT".toList, "GGG".toList)] "AAACCC".toList
    ⟨0, [], "A".toList, [], "AAC".toList, "CC".toList, [], false⟩
    0 ⟨0, 1⟩ ⟨1, 4⟩ false (by rfl) (by rfl) (by decide)

/-- C8: for every row the approximate strategy emits, the UMI is the first
five characters of the post-right flank on a reverse-oriented primer match
and the last five characters of the pre-left flank otherwise; its length is
5 when the relevant flank has at least 5 characters and the flank's length
otherwise. -/
theorem c8_umi_extraction (primers rev_primers : List (Bases × Bases))
    (seq : Bases) (row : RowA)
    (h : annotate_approx primers rev_primers seq = some row) :
    (row.primerRev = true →
      row.umi = row.postright.take 5 ∧
      (5 ≤ row.postright.length → row.umi.length = 5) ∧
      (row.postright.length < 5 → row.umi.length = row.postright.length)) ∧
    (row.primerRev = false →
      row.umi = (row.preleft.reverse.take 5).reverse ∧
      (5 ≤ row.preleft.length → row.umi.length = 5) ∧
      (row.preleft.length < 5 → row.umi.length = row.preleft.length)) := by
  unfold annotate_approx at h
  rcases hscan : scan_approx primers rev_primers seq with _ | ⟨⟨i, m1, m2, prev⟩⟩ <;>
    rw [hscan] at h
  · cases h
  dsimp only at h
  injection h with h
  subst h
  cases prev
  · constructor
    · intro hcontra
      exact Bool.noConfusion hcontra
    · intro _
      dsimp only [cond]
      refine ⟨?_, ?_, ?_⟩
      · rw [List.take_reverse, List.reverse_reverse]
      · intro h5
        rw [List.length_drop]
        omega
      · intro h5
        rw [List.length_drop]
        omega
  · constructor
    · intro _
      dsimp only [cond]
      refine ⟨rfl, ?_, ?_⟩
      · intro h5
        rw [List.length_take]
        omega
      · intro h5
        rw [List.length_take]
        omega
    · intro hcontra
      exact Bool.noConfusion hcontra

/-- C8 witness: for the emitted row of read `AAACCC` over catalog
`[(AAA, CCC)]` (forward orientation, empty pre-left flank) the UMI is the
last five characters of the pre-left flank, here empty. -/
theorem c8_witness :
    (⟨0, [], "A".toList, [], "AAC".toList, "CC".toList, [],
        false⟩ : RowA).umi =
      (((⟨0, [], "A".toList, [], "AAC".toList, "CC".toList, [],
        false⟩ : RowA).preleft.reverse.take 5)).reverse :=
  ((c8_umi_extraction [("AAA".toList, "CCC".toList)]
    [("TTT".toList, "GGG".toList)] "AAACCC".toList
    ⟨0, [], "A".toList, [], "AAC".toList, "CC".toList, [], false⟩
    (by rfl)).2 rfl).1

/-- C4 counterexample: catalog `[(AAAAAA, CCCCCC)]`, read `CCCCCC`.  The
pair's second element `CCCCCC` occurs in the read (edit distance 0), so
under the claimed order ("first searches the read for the pair's second
element, and only if that is found searches for the pair's first element")
it would be searched and found, and `AAAAAA` searched next — the claimed
trace.  The engine instead searches the first element `AAAAAA` first
(`search1 = find_near_matches(primer_pair[0], ...)`), finds nothing within
distance 2, and never searches `CCCCCC` at all. -/
theorem c4_counterexample :
    hasNearMatch "CCCCCC".toList "CCCCCC".toList ∧
      searchedPatterns "CCCCCC".toList
        [("AAAAAA".toList, "CCCCCC".toList)] = ["AAAAAA".toList] ∧
      "CCCCCC".toList ∉ searchedPatterns "CCCCCC".toList
        [("AAAAAA".toList, "CCCCCC".toList)] ∧
      searchedPatternsClaimOrder "CCCCCC".toList
        [("AAAAAA".toList, "CCCCCC".toList)] =
        ["CCCCCC".toList, "AAAAAA".toList] :=
  ⟨find_near_matches_ne_nil.mp (by decide), by rfl, by decide, by rfl⟩

/-- C4 amended: for each primer pair in catalog order, the engine first
searches the read for the pair's FIRST element allowing at most 2 edit
operations, and only if that is found searches for the pair's SECOND
element under the same budget (not the other way round, as the
counterexample shows); it returns the first index for which both are found,
and only if no pair matches in forward orientation is the same two-step
search repeated over the reverse-complemented pairs. -/
theorem c4_two_step_first_element (primers rev_primers : List (Bases × Bases))
    (seq : Bases) (hrev : revPairs primers = some rev_primers) :
    (∀ (pair : Bases × Bases) (rest : List (Bases × Bases)),
      (¬ hasNearMatch pair.1 seq →
        searchedPatterns seq (pair :: rest) =
          pair.1 :: searchedPatterns seq rest) ∧
      (hasNearMatch pair.1 seq →
        ∃ t, searchedPatterns seq (pair :: rest) =
          pair.1 :: pair.2 :: t)) ∧
    (∀ (i : Nat) (m1 m2 : FMatch) (ob : Bool),
      scan_approx primers rev_primers seq = some (i, m1, m2, ob) →
      (ob = false →
        ∃ p, primers[i]? = some p ∧
          hasNearMatch p.1 seq ∧ hasNearMatch p.2 seq ∧
          ∀ (j : Nat) (q : Bases × Bases), j < i → primers[j]? = some q →
            ¬ (hasNearMatch q.1 seq ∧ hasNearMatch q.2 seq)) ∧
      (ob = true →
        fuzzy_search seq primers = none ∧
        (∀ q ∈ primers, ¬ (hasNearMatch q.1 seq ∧ hasNearMatch q.2 seq)) ∧
        ∃ p, rev_primers[i]? = some p ∧
          hasNearMatch p.1 seq ∧ hasNearMatch p.2 seq ∧
          ∀ (j : Nat) (q : Bases × Bases), j < i →
            rev_primers[j]? = some q →
            ¬ (hasNearMatch q.1 seq ∧ hasNearMatch q.2 seq))) := by
  constructor
  · intro pair rest
    constructor
    · intro hno
      have hnil : find_near_matches pair.1 seq 2 = [] := by
        by_contra hne
        exact hno (find_near_matches_ne_nil.mp hne)
      conv_lhs => unfold searchedPatterns
      rw [hnil]
    · intro hyes
      have hne : find_near_matches pair.1 seq 2 ≠ [] :=
        find_near_matches_ne_nil.mpr hyes
      rcases hfm : find_near_matches pair.1 seq 2 with _ | ⟨m, t⟩
      · exact absurd hfm hne
      unfold searchedPatterns
      rw [hfm]
      rcases hfm2 : find_near_matches pair.2 seq 2 with _ | ⟨m2, t2⟩
      · exact ⟨searchedPatterns seq rest, rfl⟩
      · exact ⟨[], rfl⟩
  intro i m1 m2 ob hscan
  unfold scan_approx at hscan
  rcases hf : fuzzy_search seq primers with _ | ⟨⟨i0, m10, m20⟩⟩ <;>
    rw [hf] at hscan
  · rcases hr : fuzzy_search seq rev_primers with _ | ⟨⟨i1, m11, m21⟩⟩ <;>
      rw [hr] at hscan
    · cases hscan
    · dsimp only at hscan
      injection hscan with h
      injection h with hi h
      injection h with hm1 h
      injection h with hm2 hob
      subst hi
      subst hob
      constructor
      · intro hcontra
        cases hcontra
      · intro _
        exact ⟨rfl, fuzzy_search_none_found hf, fuzzy_search_found hr⟩
  · dsimp only at hscan
    injection hscan with h
    injection h with hi h
    injection h with hm1 h
    injection h with hm2 hob
    subst hi
    subst hob
    constructor
    · intro _
      exact fuzzy_search_found hf
    · intro hcontra
      cases hcontra

/-- C4 witness: catalog `[(AAA, CCC)]`, read `AAACCC`; the first element
`AAA` is searched first and found, so `CCC` is searched next, and the
forward scan returns index 0 with both oligos within edit distance 2. -/
theorem c4_witness :
    (∃ t, searchedPatterns "AAACCC".toList
        [("AAA".toList, "CCC".toList)] =
        "AAA".toList :: "CCC".toList :: t) ∧
      ∃ p, [("AAA".toList, "CCC".toList)][(0 : Nat)]? = some p ∧
        hasNearMatch p.1 "AAACCC".toList ∧
        hasNearMatch p.2 "AAACCC".toList ∧
        ∀ (j : Nat) (q : Bases × Bases), j < 0 →
          [("AAA".toList, "CCC".toList)][j]? = some q →
          ¬ (hasNearMatch q.1 "AAACCC".toList ∧
             hasNearMatch q.2 "AAACCC".toList) :=
  ⟨((c4_two_step_first_element [("AAA".toList, "CCC".toList)]
      [("TTT".toList, "GGG".toList)] "AAACCC".toList (by rfl)).1
      ("AAA".toList, "CCC".toList) []).2
      (find_near_matches_ne_nil.mp (by decide)),
   ((c4_two_step_first_element [("AAA".toList, "CCC".toList)]
      [("TTT".toList, "GGG".toList)] "AAACCC".toList (by rfl)).2
      0 ⟨0, 1⟩ ⟨1, 4⟩ false (by rfl)).1 rfl⟩

/-- C9: a read matching nothing — no alternative of the combined exact
pattern matches it, and no primer pair (in either orientation) has both
oligos within edit distance 2 — produces no output row and no error in
either strategy.  The alternation is taken non-empty (`hne`): this is part
of the premise "no combined-pattern match", because the empty catalog's
pattern `re.compile('')` matches every read (and the program then crashes,
see `annotate_exact_empty_catalog`), so the premise can never hold there. -/
theorem c9_no_match_no_output (primers rev_primers : List (Bases × Bases))
    (seq : Bases) (alts : List (List RegexPiece))
    (hb : build_regex primers = some alts)
    (hne : alts ≠ [])
    (hex : ∀ ab ∈ alts.map altLits, ¬ AltMatch ab.1 ab.2 seq)
    (hap : ∀ q ∈ primers, ¬ (hasNearMatch q.1 seq ∧ hasNearMatch q.2 seq))
    (har : ∀ q ∈ rev_primers,
      ¬ (hasNearMatch q.1 seq ∧ hasNearMatch q.2 seq)) :
    annotate_exact primers seq = Except.ok none ∧
      annotate_approx primers rev_primers seq = none := by
  constructor
  · apply annotate_exact_nomatch hb
    apply reGroups_eq_none hne
    rw [searchCombined_none_iff]
    exact fun ab hab => matchAlt_eq_none (hex ab hab)
  · unfold annotate_approx scan_approx
    rw [fuzzy_search_eq_none hap]
    dsimp only
    rw [fuzzy_search_eq_none har]

/-- C9 witness: catalog `[(AATT, CCGG)]` (self-reverse-complementary), read
`T`: neither strategy emits a row and no error is raised. -/
theorem c9_witness :
    annotate_exact [("AATT".toList, "CCGG".toList)] "T".toList =
        Except.ok none ∧
      annotate_approx [("AATT".toList, "CCGG".toList)]
        [("AATT".toList, "CCGG".toList)] "T".toList = none := by
  refine c9_no_match_no_output _ _ _
    [altPattern "CCGG".toList "AATT".toList,
     altPattern "AATT".toList "CCGG".toList] (by rfl) (by decide) ?_ ?_ ?_
  · intro ab hab
    simp only [List.map_cons, List.map_nil, List.mem_cons,
      List.not_mem_nil, or_false] at hab
    rcases hab with rfl | rfl
    · exact fun hAM => matchAlt_ne_none (by decide) hAM (by rfl)
    · exact fun hAM => matchAlt_ne_none (by decide) hAM (by rfl)
  · intro q hq
    simp only [List.mem_cons, List.not_mem_nil, or_false] at hq
    subst hq
    rintro ⟨hq1, -⟩
    exact (find_near_matches_ne_nil.mpr hq1) (by rfl)
  · intro q hq
    simp only [List.mem_cons, List.not_mem_nil, or_false] at hq
    subst hq
    rintro ⟨hq1, -⟩
    exact (find_near_matches_ne_nil.mpr hq1) (by rfl)
